import Mathlib

/-!
Verification of the CUDA matrix-multiplication engine (`kernel.cu`).

The development shallowly embeds the source: the `Matrix` descriptor mirrors
the C struct (with `elements` modelled as a base address into a flat device
memory `Nat → F`), the two kernels are embedded as per-thread value/address
functions plus a grid-launch fold that applies every thread's single write,
and the host orchestrator `MatMul` is embedded as a pure state transformer
staging host buffers into device memory and back.  Matrix elements are kept
abstract: kernels are parametric in the element type and in the addition and
multiplication operations (no associativity or commutativity is assumed
unless a claim needs the mathematical sum), which lets summation-order facts
be stated exactly.
-/

namespace CMMX

/-- Thread block size, `#define BLOCK_SIZE 16` in the source. -/
def BLOCK_SIZE : Nat := 16

/-- The C `Matrix` struct: `width`, `height`, `stride` and the `elements`
pointer, modelled as a base address (in elements) into a flat memory. -/
structure Matrix where
  width : Nat
  height : Nat
  stride : Nat
  elements : Nat
  deriving DecidableEq

/-- A CUDA thread identity: block index (x, y) and thread index (x, y)
within the block. -/
structure Tid where
  bx : Nat
  byi : Nat
  tx : Nat
  ty : Nat
  deriving DecidableEq

variable {F : Type}

/-- Pointwise update of a flat memory, modelling a single store. -/
def memUpd (m : Nat → F) (a : Nat) (v : F) : Nat → F :=
  fun x => if x = a then v else m x

/-- Left-to-right accumulation of products `f k * g k` over an index list,
starting from `acc`.  This is the accumulation pattern of both kernels;
`fadd` and `fmul` stay abstract so that the summation order is kept exact. -/
def dotAcc (fadd fmul : F → F → F) (f g : Nat → F) (acc : F) (l : List Nat) : F :=
  l.foldl (fun a k => fadd a (fmul (f k) (g k))) acc

/-- `GetSubMatrix` from the source: the BLOCK_SIZE x BLOCK_SIZE sub-matrix of
`A` located `col` sub-matrices right and `row` sub-matrices down, sharing the
parent stride, with `elements = &A.elements[A.stride*BLOCK_SIZE*row + BLOCK_SIZE*col]`.
It is a pure function of the descriptor: no copy, no allocation, no state. -/
def GetSubMatrix (A : Matrix) (row col : Nat) : Matrix :=
  { width := BLOCK_SIZE
    height := BLOCK_SIZE
    stride := A.stride
    elements := A.elements + (A.stride * BLOCK_SIZE * row + BLOCK_SIZE * col) }

/-- `row = blockIdx.y * blockDim.y + threadIdx.y` of the general kernel
(blockDim.y = BLOCK_SIZE at every launch site). -/
def generalRow (t : Tid) : Nat := t.byi * BLOCK_SIZE + t.ty

/-- `col = blockIdx.x * blockDim.x + threadIdx.x` of the general kernel. -/
def generalCol (t : Tid) : Nat := t.bx * BLOCK_SIZE + t.tx

/-- The accumulator computed by one thread of `MatMulKernelGeneral`:
`Cvalue = Σ_e A.elements[row*A.width + e] * B.elements[e*B.width + col]`,
accumulated left to right exactly as the source loop does. -/
def MatMulKernelGeneralValue (fz : F) (fadd fmul : F → F → F) (mem : Nat → F)
    (A B : Matrix) (t : Tid) : F :=
  dotAcc fadd fmul
    (fun e => mem (A.elements + generalRow t * A.width + e))
    (fun e => mem (B.elements + e * B.width + generalCol t))
    fz (List.range A.width)

/-- The single store address of one thread of `MatMulKernelGeneral`:
`C.elements[row * C.width + col]`. -/
def MatMulKernelGeneralAddr (C : Matrix) (t : Tid) : Nat :=
  C.elements + generalRow t * C.width + generalCol t

/-- One shared-memory cell after the collective load: thread `(r, c)` stores
`Msub.elements[r * Msub.stride + c]`, and the barrier makes the whole tile a
function of the pre-launch memory. -/
def sharedTile (mem : Nat → F) (Msub : Matrix) (r c : Nat) : F :=
  mem (Msub.elements + r * Msub.stride + c)

/-- The index list of the contraction loop of `MatMulKernelPartitioned`:
`for (m = 0; m < A.width / BLOCK_SIZE; ++m)`, integer division. -/
def tiledSteps (A : Matrix) : List Nat := List.range (A.width / BLOCK_SIZE)

/-- The accumulator computed by one thread of `MatMulKernelPartitioned`:
for each tile step `m` it reads the shared tiles of
`GetSubMatrix A blockRow m` and `GetSubMatrix B m blockCol` and accumulates
`As[row][e] * Bs[e][col]` for `e < BLOCK_SIZE`, left to right. -/
def MatMulKernelPartitionedValue (fz : F) (fadd fmul : F → F → F) (mem : Nat → F)
    (A B : Matrix) (t : Tid) : F :=
  (tiledSteps A).foldl (fun acc m =>
    (List.range BLOCK_SIZE).foldl (fun a e =>
      fadd a (fmul (sharedTile mem (GetSubMatrix A t.byi m) t.ty e)
                   (sharedTile mem (GetSubMatrix B m t.bx) e t.tx))) acc) fz

/-- The single store address of one thread of `MatMulKernelPartitioned`:
`Csub.elements[row * Csub.stride + col]` with `Csub = GetSubMatrix C blockRow blockCol`. -/
def MatMulKernelPartitionedAddr (C : Matrix) (t : Tid) : Nat :=
  (GetSubMatrix C t.byi t.bx).elements + t.ty * (GetSubMatrix C t.byi t.bx).stride + t.tx

/-- All threads of a `gx × gy` grid of BLOCK_SIZE x BLOCK_SIZE blocks. -/
def gridList (gx gy : Nat) : List Tid :=
  (List.range gx).flatMap fun bx =>
    (List.range gy).flatMap fun byi =>
      (List.range BLOCK_SIZE).flatMap fun tx =>
        (List.range BLOCK_SIZE).map fun ty => ⟨bx, byi, tx, ty⟩

/-- Launch semantics of one kernel on a grid: every thread reads the
pre-launch memory and performs its single store; the stores are applied as a
fold (the kernels write pairwise disjoint cells, so the order is irrelevant). -/
def launchGrid (gx gy : Nat) (addr : Tid → Nat) (val : Tid → F) (mem : Nat → F) : Nat → F :=
  (gridList gx gy).foldl (fun m t => memUpd m (addr t) (val t)) mem

/-- Launching `MatMulKernelGeneral` on a `gx × gy` grid. -/
def launchGeneral (fz : F) (fadd fmul : F → F → F) (A B C : Matrix)
    (gx gy : Nat) (mem : Nat → F) : Nat → F :=
  launchGrid gx gy (MatMulKernelGeneralAddr C)
    (MatMulKernelGeneralValue fz fadd fmul mem A B) mem

/-- Launching `MatMulKernelPartitioned` on a `gx × gy` grid. -/
def launchPartitioned (fz : F) (fadd fmul : F → F → F) (A B C : Matrix)
    (gx gy : Nat) (mem : Nat → F) : Nat → F :=
  launchGrid gx gy (MatMulKernelPartitionedAddr C)
    (MatMulKernelPartitionedValue fz fadd fmul mem A B) mem

/-- A host-side matrix: descriptor plus the contents of its heap buffer. -/
structure HostMatrix (F : Type) where
  width : Nat
  height : Nat
  stride : Nat
  buf : Nat → F

/-- The host matrices `A`, `B`, `C` passed to `MatMul`. -/
structure HostState (F : Type) where
  A : HostMatrix F
  B : HostMatrix F
  C : HostMatrix F

/-- The device addresses handed out by `cudaMalloc` for `d_A`, `d_B`, `d_C`. -/
structure DevAlloc where
  aA : Nat
  aB : Nat
  aC : Nat
  deriving DecidableEq

/-- Which of the two kernels gets launched. -/
inductive Kernel
  | general
  | partitioned
  deriving DecidableEq

/-- The kernel selection of `MatMul`:
`if (general) MatMulKernelGeneral<<<...>>> else MatMulKernelPartitioned<<<...>>>`. -/
def MatMulSelect (general : Bool) : Kernel :=
  if general then Kernel.general else Kernel.partitioned

/-- `cudaMemcpy` of `len` elements from a host buffer `src` into device
memory starting at `base`. -/
def copyRegion (mem : Nat → F) (base len : Nat) (src : Nat → F) : Nat → F :=
  fun a => if base ≤ a ∧ a < base + len then src (a - base) else mem a

/-- The host orchestrator `MatMul(A, B, C, general)`: stage `A` and `B` into
device memory (device descriptors get `stride = width`), launch the selected
kernel on a `(B.width/BLOCK_SIZE, A.height/BLOCK_SIZE)` grid, copy the device
`C` buffer back into the host `C` buffer.  `dmem` is the device memory as
left by the allocator (uninitialized contents are arbitrary). -/
def MatMul (fz : F) (fadd fmul : F → F → F) (s : HostState F) (general : Bool)
    (al : DevAlloc) (dmem : Nat → F) : HostState F :=
  let d_A : Matrix := ⟨s.A.width, s.A.height, s.A.width, al.aA⟩
  let mem1 := copyRegion dmem al.aA (s.A.width * s.A.height) s.A.buf
  let d_B : Matrix := ⟨s.B.width, s.B.height, s.B.width, al.aB⟩
  let mem2 := copyRegion mem1 al.aB (s.B.width * s.B.height) s.B.buf
  let d_C : Matrix := ⟨s.C.width, s.C.height, s.C.width, al.aC⟩
  let gx := s.B.width / BLOCK_SIZE
  let gy := s.A.height / BLOCK_SIZE
  let mem3 :=
    match MatMulSelect general with
    | Kernel.general => launchGeneral fz fadd fmul d_A d_B d_C gx gy mem2
    | Kernel.partitioned => launchPartitioned fz fadd fmul d_A d_B d_C gx gy mem2
  { s with C := { s.C with buf := fun i =>
      if i < s.C.width * s.C.height then mem3 (al.aC + i) else s.C.buf i } }

/-- Accelerator-memory events issued by one `MatMul` call.  An `alloc` whose
`ok` flag is false models a failed `cudaMalloc` (nothing is held); a `launch`
whose `ok` flag is false models a failed kernel launch.  The source checks
neither, so the event sequence is the same on every path. -/
inductive AccEvent
  | alloc (handle : Nat) (len : Nat) (ok : Bool)
  | copyIn (handle : Nat)
  | launch (k : Kernel) (ok : Bool)
  | copyOut (handle : Nat)
  | free (handle : Nat)
  deriving DecidableEq

/-- The parameters of one `MatMul` call as seen by the accelerator-memory
service: the three handles and sizes, the outcome flags, and the kernel flag. -/
structure CallParams where
  hA : Nat
  hB : Nat
  hC : Nat
  lenA : Nat
  lenB : Nat
  lenC : Nat
  okA : Bool
  okB : Bool
  okC : Bool
  okLaunch : Bool
  general : Bool
  deriving DecidableEq

/-- The accelerator-memory event sequence of one `MatMul` call, in source
order: malloc A, memcpy in, malloc B, memcpy in, malloc C, launch,
memcpy out, free A, free B, free C — straight-line, no branch skips a free. -/
def MatMulTrace (p : CallParams) : List AccEvent :=
  [AccEvent.alloc p.hA p.lenA p.okA, AccEvent.copyIn p.hA,
   AccEvent.alloc p.hB p.lenB p.okB, AccEvent.copyIn p.hB,
   AccEvent.alloc p.hC p.lenC p.okC,
   AccEvent.launch (MatMulSelect p.general) p.okLaunch,
   AccEvent.copyOut p.hC,
   AccEvent.free p.hA, AccEvent.free p.hB, AccEvent.free p.hC]

/-- The accelerator memory pool: the list of live allocations (handle, size).
A successful `alloc` adds one, `free` removes every entry with that handle,
everything else leaves the pool unchanged. -/
def applyAccEvent (s : List (Nat × Nat)) : AccEvent → List (Nat × Nat)
  | AccEvent.alloc h len ok => if ok then (h, len) :: s else s
  | AccEvent.free h => s.filter fun q => q.1 != h
  | _ => s

/-- Run an event trace against the pool. -/
def runAccTrace (s : List (Nat × Nat)) (tr : List AccEvent) : List (Nat × Nat) :=
  tr.foldl applyAccEvent s

/-- Run the traces of a sequence of `MatMul` calls against the pool. -/
def runCalls (s : List (Nat × Nat)) (ps : List CallParams) : List (Nat × Nat) :=
  ps.foldl (fun st p => runAccTrace st (MatMulTrace p)) s

/-- Total accelerator memory held by the pool. -/
def heldBytes (s : List (Nat × Nat)) : Nat := (s.map Prod.snd).sum

/-! ## Basic lemmas about the launch fold -/

theorem memUpd_same (m : Nat → F) (a : Nat) (v : F) : memUpd m a v a = v := by
  simp [memUpd]

theorem memUpd_other (m : Nat → F) (a : Nat) (v : F) (x : Nat) (h : x ≠ a) :
    memUpd m a v x = m x := by
  simp [memUpd, h]

theorem foldl_memUpd_notmem (l : List Tid) (addr : Tid → Nat) (val : Tid → F)
    (mem : Nat → F) (a : Nat) (h : ∀ u ∈ l, addr u ≠ a) :
    (l.foldl (fun m t => memUpd m (addr t) (val t)) mem) a = mem a := by
  induction l generalizing mem with
  | nil => rfl
  | cons u l ih =>
    simp only [List.foldl_cons]
    rw [ih _ fun v hv => h v (List.mem_cons_of_mem u hv)]
    exact memUpd_other mem (addr u) (val u) a fun he => h u (List.mem_cons_self u l) he.symm

theorem foldl_memUpd_get (l : List Tid) (addr : Tid → Nat) (val : Tid → F)
    (mem : Nat → F) (t : Tid) (ht : t ∈ l)
    (hu : ∀ u ∈ l, addr u = addr t → u = t) :
    (l.foldl (fun m u => memUpd m (addr u) (val u)) mem) (addr t) = val t := by
  induction l generalizing mem with
  | nil => cases ht
  | cons u l ih =>
    simp only [List.foldl_cons]
    by_cases hmem : t ∈ l
    · exact ih _ hmem fun v hv => hu v (List.mem_cons_of_mem u hv)
    · have htu : t = u := by
        rcases List.mem_cons.mp ht with h | h
        · exact h
        · exact absurd h hmem
      subst htu
      rw [foldl_memUpd_notmem]
      · exact memUpd_same mem (addr t) (val t)
      · intro v hv hva
        exact hmem (hu v (List.mem_cons_of_mem t hv) hva ▸ hv)

theorem mem_gridList (gx gy : Nat) (t : Tid) :
    t ∈ gridList gx gy ↔
      t.bx < gx ∧ t.byi < gy ∧ t.tx < BLOCK_SIZE ∧ t.ty < BLOCK_SIZE := by
  cases t with
  | mk bx byi tx ty =>
    simp only [gridList, List.mem_flatMap, List.mem_map, List.mem_range]
    constructor
    · rintro ⟨a, ha, b, hb, c, hc, d, hd, he⟩
      cases he
      exact ⟨ha, hb, hc, hd⟩
    · rintro ⟨h1, h2, h3, h4⟩
      exact ⟨bx, h1, byi, h2, tx, h3, ty, h4, rfl⟩

theorem rowcol_inj (W r1 c1 r2 c2 : Nat) (h1 : c1 < W) (h2 : c2 < W)
    (h : r1 * W + c1 = r2 * W + c2) : r1 = r2 ∧ c1 = c2 := by
  have hW : 0 < W := Nat.pos_of_ne_zero fun hz => by omega
  have e1 : (r1 * W + c1) / W = r1 := by
    rw [Nat.mul_comm r1 W, Nat.mul_add_div hW, Nat.div_eq_of_lt h1, Nat.add_zero]
  have e2 : (r2 * W + c2) / W = r2 := by
    rw [Nat.mul_comm r2 W, Nat.mul_add_div hW, Nat.div_eq_of_lt h2, Nat.add_zero]
  have hr : r1 = r2 := by rw [← e1, ← e2, h]
  subst hr
  exact ⟨rfl, Nat.add_left_cancel h⟩

theorem rowcol_lt (r c h w : Nat) (hr : r < h) (hc : c < w) : r * w + c < h * w := by
  calc r * w + c < r * w + w := by omega
  _ = (r + 1) * w := by ring
  _ ≤ h * w := Nat.mul_le_mul_right w hr

/-- The value stored at the address written by thread `t`, when every thread
of the grid writes at `base + (row * W + col)` for its own row and column and
the row width `W` covers the whole grid width. -/
theorem launchGrid_get (gx gy : Nat) (addr : Tid → Nat) (val : Tid → F)
    (mem : Nat → F) (base W : Nat)
    (haddr : ∀ u : Tid, addr u =
      base + ((BLOCK_SIZE * u.byi + u.ty) * W + (BLOCK_SIZE * u.bx + u.tx)))
    (hW : BLOCK_SIZE * gx ≤ W) (t : Tid)
    (h1 : t.bx < gx) (h2 : t.byi < gy) (h3 : t.tx < BLOCK_SIZE) (h4 : t.ty < BLOCK_SIZE) :
    launchGrid gx gy addr val mem (addr t) = val t := by
  apply foldl_memUpd_get
  · exact (mem_gridList gx gy t).mpr ⟨h1, h2, h3, h4⟩
  · intro u hu hequ
    obtain ⟨hu1, hu2, hu3, hu4⟩ := (mem_gridList gx gy u).mp hu
    rw [haddr u, haddr t] at hequ
    have hcu : BLOCK_SIZE * u.bx + u.tx < W := by
      have : BLOCK_SIZE * u.bx + u.tx < BLOCK_SIZE * gx := by
        have : BLOCK_SIZE * u.bx + BLOCK_SIZE ≤ BLOCK_SIZE * gx := by
          have := Nat.mul_le_mul_left BLOCK_SIZE hu1
          simpa [Nat.mul_succ] using Nat.mul_le_mul_left BLOCK_SIZE hu1
        omega
      omega
    have hct : BLOCK_SIZE * t.bx + t.tx < W := by
      have : BLOCK_SIZE * t.bx + BLOCK_SIZE ≤ BLOCK_SIZE * gx := by
        simpa [Nat.mul_succ] using Nat.mul_le_mul_left BLOCK_SIZE h1
      omega
    have hkey := rowcol_inj W _ _ _ _ hcu hct (Nat.add_left_cancel hequ)
    obtain ⟨hrow, hcol⟩ := hkey
    have hB : (BLOCK_SIZE : Nat) = 16 := rfl
    cases u with
    | mk ubx ubyi utx uty =>
      cases t with
      | mk tbx tbyi ttx tty =>
        simp only at hrow hcol hu3 hu4 h3 h4 ⊢
        have : ubyi = tbyi ∧ uty = tty := by rw [hB] at hrow hu4 h4; omega
        have hc2 : ubx = tbx ∧ utx = ttx := by rw [hB] at hcol hu3 h3; omega
        simp [this.1, this.2, hc2.1, hc2.2]

/-- Reading the cell written for output coordinates `(r, c)` after launching
the general kernel on a grid that exactly tiles `C`. -/
theorem launchGeneral_at (fz : F) (fadd fmul : F → F → F) (A B C : Matrix)
    (gx gy : Nat) (mem : Nat → F)
    (hgx : BLOCK_SIZE * gx = C.width) (hgy : BLOCK_SIZE * gy = C.height)
    (r c : Nat) (hr : r < C.height) (hc : c < C.width) :
    launchGeneral fz fadd fmul A B C gx gy mem (C.elements + (r * C.width + c))
      = MatMulKernelGeneralValue fz fadd fmul mem A B
          ⟨c / BLOCK_SIZE, r / BLOCK_SIZE, c % BLOCK_SIZE, r % BLOCK_SIZE⟩ := by
  have hB : (BLOCK_SIZE : Nat) = 16 := rfl
  have hgx16 : 16 * gx = C.width := by rw [← hB]; exact hgx
  have hgy16 : 16 * gy = C.height := by rw [← hB]; exact hgy
  have haddr : ∀ u : Tid, MatMulKernelGeneralAddr C u
      = C.elements + ((BLOCK_SIZE * u.byi + u.ty) * C.width + (BLOCK_SIZE * u.bx + u.tx)) := by
    intro u
    unfold MatMulKernelGeneralAddr generalRow generalCol
    ring
  have e1 : BLOCK_SIZE * (r / BLOCK_SIZE) + r % BLOCK_SIZE = r := by rw [hB]; omega
  have e2 : BLOCK_SIZE * (c / BLOCK_SIZE) + c % BLOCK_SIZE = c := by rw [hB]; omega
  have ht : C.elements + (r * C.width + c)
      = MatMulKernelGeneralAddr C
          ⟨c / BLOCK_SIZE, r / BLOCK_SIZE, c % BLOCK_SIZE, r % BLOCK_SIZE⟩ := by
    rw [haddr]
    congr 1
    show r * C.width + c
      = (BLOCK_SIZE * (r / BLOCK_SIZE) + r % BLOCK_SIZE) * C.width
        + (BLOCK_SIZE * (c / BLOCK_SIZE) + c % BLOCK_SIZE)
    rw [e1, e2]
  rw [ht]
  unfold launchGeneral
  exact launchGrid_get gx gy _ _ mem C.elements C.width haddr (le_of_eq hgx) _
    (by show c / BLOCK_SIZE < gx; rw [hB]; omega)
    (by show r / BLOCK_SIZE < gy; rw [hB]; omega)
    (by show c % BLOCK_SIZE < BLOCK_SIZE; rw [hB]; omega)
    (by show r % BLOCK_SIZE < BLOCK_SIZE; rw [hB]; omega)

/-- Reading the cell written for output coordinates `(r, c)` after launching
the partitioned kernel on a grid that exactly tiles `C` (whose device
descriptor has `stride = width`). -/
theorem launchPartitioned_at (fz : F) (fadd fmul : F → F → F) (A B C : Matrix)
    (gx gy : Nat) (mem : Nat → F)
    (hgx : BLOCK_SIZE * gx = C.width) (hgy : BLOCK_SIZE * gy = C.height)
    (hsC : C.stride = C.width)
    (r c : Nat) (hr : r < C.height) (hc : c < C.width) :
    launchPartitioned fz fadd fmul A B C gx gy mem (C.elements + (r * C.width + c))
      = MatMulKernelPartitionedValue fz fadd fmul mem A B
          ⟨c / BLOCK_SIZE, r / BLOCK_SIZE, c % BLOCK_SIZE, r % BLOCK_SIZE⟩ := by
  have hB : (BLOCK_SIZE : Nat) = 16 := rfl
  have hgx16 : 16 * gx = C.width := by rw [← hB]; exact hgx
  have hgy16 : 16 * gy = C.height := by rw [← hB]; exact hgy
  have haddr : ∀ u : Tid, MatMulKernelPartitionedAddr C u
      = C.elements + ((BLOCK_SIZE * u.byi + u.ty) * C.width + (BLOCK_SIZE * u.bx + u.tx)) := by
    intro u
    unfold MatMulKernelPartitionedAddr GetSubMatrix
    rw [hsC]
    ring
  have e1 : BLOCK_SIZE * (r / BLOCK_SIZE) + r % BLOCK_SIZE = r := by rw [hB]; omega
  have e2 : BLOCK_SIZE * (c / BLOCK_SIZE) + c % BLOCK_SIZE = c := by rw [hB]; omega
  have ht : C.elements + (r * C.width + c)
      = MatMulKernelPartitionedAddr C
          ⟨c / BLOCK_SIZE, r / BLOCK_SIZE, c % BLOCK_SIZE, r % BLOCK_SIZE⟩ := by
    rw [haddr]
    congr 1
    show r * C.width + c
      = (BLOCK_SIZE * (r / BLOCK_SIZE) + r % BLOCK_SIZE) * C.width
        + (BLOCK_SIZE * (c / BLOCK_SIZE) + c % BLOCK_SIZE)
    rw [e1, e2]
  rw [ht]
  unfold launchPartitioned
  exact launchGrid_get gx gy _ _ mem C.elements C.width haddr (le_of_eq hgx) _
    (by show c / BLOCK_SIZE < gx; rw [hB]; omega)
    (by show r / BLOCK_SIZE < gy; rw [hB]; omega)
    (by show c % BLOCK_SIZE < BLOCK_SIZE; rw [hB]; omega)
    (by show r % BLOCK_SIZE < BLOCK_SIZE; rw [hB]; omega)

/-! ## Lemmas about staging copies -/

theorem copyRegion_in (mem : Nat → F) (base len : Nat) (src : Nat → F) (off : Nat)
    (h : off < len) : copyRegion mem base len src (base + off) = src off := by
  unfold copyRegion
  rw [if_pos ⟨Nat.le_add_right base off, by omega⟩]
  congr 1
  omega

theorem copyRegion_out (mem : Nat → F) (base len : Nat) (src : Nat → F) (a : Nat)
    (h : a < base ∨ base + len ≤ a) : copyRegion mem base len src a = mem a := by
  unfold copyRegion
  rw [if_neg]
  rintro ⟨hh1, hh2⟩
  omega

/-- Reading back an element of the staged `A` after both staging copies. -/
theorem staged_read_A (s : HostState F) (al : DevAlloc) (dmem : Nat → F)
    (h7 : al.aA + s.A.width * s.A.height ≤ al.aB) (off : Nat)
    (hoff : off < s.A.width * s.A.height) :
    copyRegion (copyRegion dmem al.aA (s.A.width * s.A.height) s.A.buf)
      al.aB (s.B.width * s.B.height) s.B.buf (al.aA + off) = s.A.buf off := by
  rw [copyRegion_out _ _ _ _ _ (Or.inl (by omega)), copyRegion_in _ _ _ _ _ hoff]

/-- Reading back an element of the staged `B` after both staging copies. -/
theorem staged_read_B (s : HostState F) (al : DevAlloc) (dmem : Nat → F)
    (off : Nat) (hoff : off < s.B.width * s.B.height) :
    copyRegion (copyRegion dmem al.aA (s.A.width * s.A.height) s.A.buf)
      al.aB (s.B.width * s.B.height) s.B.buf (al.aB + off) = s.B.buf off := by
  rw [copyRegion_in _ _ _ _ _ hoff]

/-! ## Lemmas about the accumulation pattern -/

theorem dotAcc_append (fadd fmul : F → F → F) (f g : Nat → F) (acc : F)
    (l1 l2 : List Nat) :
    dotAcc fadd fmul f g acc (l1 ++ l2)
      = dotAcc fadd fmul f g (dotAcc fadd fmul f g acc l1) l2 := by
  simp [dotAcc, List.foldl_append]

theorem dotAcc_congr (fadd fmul : F → F → F) (f g f2 g2 : Nat → F) (acc : F)
    (l : List Nat) (h : ∀ k ∈ l, f k = f2 k ∧ g k = g2 k) :
    dotAcc fadd fmul f g acc l = dotAcc fadd fmul f2 g2 acc l := by
  induction l generalizing acc with
  | nil => rfl
  | cons k l ih =>
    simp only [dotAcc, List.foldl_cons]
    rw [(h k (List.mem_cons_self k l)).1, (h k (List.mem_cons_self k l)).2]
    exact ih _ fun v hv => h v (List.mem_cons_of_mem k hv)

/-- Over a commutative monoid, the kernels' left-to-right accumulation from
zero is the mathematical sum. -/
theorem dotAcc_eq_sum [AddCommMonoid F] [Mul F] (f g : Nat → F) (n : Nat) :
    dotAcc (· + ·) (· * ·) f g 0 (List.range n)
      = ∑ e ∈ Finset.range n, f e * g e := by
  induction n with
  | zero => simp [dotAcc]
  | succ n ih =>
    rw [List.range_succ, dotAcc_append, Finset.sum_range_succ, ← ih]
    simp [dotAcc]

/-- Splitting a length-`b * q` accumulation into `q` chunks of `b`: the
block-batched double loop of the tiled kernel performs exactly the same
left-to-right accumulation as one flat loop. -/
theorem dotAcc_chunks (fadd fmul : F → F → F) (f g : Nat → F) (b : Nat) :
    ∀ (q : Nat) (acc : F),
      (List.range q).foldl (fun a m =>
          (List.range b).foldl (fun a2 e =>
            fadd a2 (fmul (f (b * m + e)) (g (b * m + e)))) a) acc
        = dotAcc fadd fmul f g acc (List.range (b * q)) := by
  intro q
  induction q with
  | zero => intro acc; simp [dotAcc]
  | succ q ih =>
    intro acc
    rw [List.range_succ, List.foldl_append, ih, Nat.mul_succ, List.range_add,
      dotAcc_append]
    simp only [List.foldl_cons, List.foldl_nil, dotAcc, List.foldl_map]

/-- The per-thread value of the tiled kernel is one flat left-to-right
accumulation of stride-addressed products over the contraction indices
`0 ≤ k < BLOCK_SIZE * (A.width / BLOCK_SIZE)`. -/
theorem partitionedValue_eq (fz : F) (fadd fmul : F → F → F) (mem : Nat → F)
    (A B : Matrix) (t : Tid) :
    MatMulKernelPartitionedValue fz fadd fmul mem A B t
      = dotAcc fadd fmul
          (fun k => mem (A.elements + (BLOCK_SIZE * t.byi + t.ty) * A.stride + k))
          (fun k => mem (B.elements + k * B.stride + (BLOCK_SIZE * t.bx + t.tx)))
          fz (List.range (BLOCK_SIZE * (A.width / BLOCK_SIZE))) := by
  have hbody : (fun (acc : F) (m : Nat) =>
      (List.range BLOCK_SIZE).foldl (fun a e =>
        fadd a (fmul (sharedTile mem (GetSubMatrix A t.byi m) t.ty e)
                     (sharedTile mem (GetSubMatrix B m t.bx) e t.tx))) acc)
      = (fun (acc : F) (m : Nat) =>
      (List.range BLOCK_SIZE).foldl (fun a e =>
        fadd a (fmul
          (mem (A.elements + (BLOCK_SIZE * t.byi + t.ty) * A.stride + (BLOCK_SIZE * m + e)))
          (mem (B.elements + (BLOCK_SIZE * m + e) * B.stride + (BLOCK_SIZE * t.bx + t.tx))))) acc) := by
    funext acc m
    have e1 : ∀ e : Nat,
        A.elements + (A.stride * BLOCK_SIZE * t.byi + BLOCK_SIZE * m) + t.ty * A.stride + e
          = A.elements + (BLOCK_SIZE * t.byi + t.ty) * A.stride + (BLOCK_SIZE * m + e) := by
      intro e; ring
    have e2 : ∀ e : Nat,
        B.elements + (B.stride * BLOCK_SIZE * m + BLOCK_SIZE * t.bx) + e * B.stride + t.tx
          = B.elements + (BLOCK_SIZE * m + e) * B.stride + (BLOCK_SIZE * t.bx + t.tx) := by
      intro e; ring
    simp only [sharedTile, GetSubMatrix, e1, e2]
  rw [MatMulKernelPartitionedValue, tiledSteps, hbody]
  exact dotAcc_chunks fadd fmul
    (fun k => mem (A.elements + (BLOCK_SIZE * t.byi + t.ty) * A.stride + k))
    (fun k => mem (B.elements + k * B.stride + (BLOCK_SIZE * t.bx + t.tx)))
    BLOCK_SIZE (A.width / BLOCK_SIZE) fz

/-! ## The host pipeline end to end -/

/-- Under the dimension invariant and with the three staging buffers laid out
disjointly, element `(r, c)` of the host `C` buffer after `MatMul` — with
either kernel — is the left-to-right accumulation of
`A(r, e) * B(e, c)` over the contraction dimension, read from the host `A`
and `B` buffers.  `fadd` and `fmul` are arbitrary, so this is a statement
about the exact operation sequence, not about ideal arithmetic. -/
theorem matMul_buf_eq (fz : F) (fadd fmul : F → F → F) (s : HostState F) (g : Bool)
    (al : DevAlloc) (dmem : Nat → F)
    (h1 : s.A.width % BLOCK_SIZE = 0) (h2 : s.A.height % BLOCK_SIZE = 0)
    (h3 : s.B.width % BLOCK_SIZE = 0)
    (h4 : s.A.width = s.B.height) (h5 : s.A.height = s.C.height) (h6 : s.B.width = s.C.width)
    (h7 : al.aA + s.A.width * s.A.height ≤ al.aB)
    (h8 : al.aB + s.B.width * s.B.height ≤ al.aC)
    (r c : Nat) (hr : r < s.C.height) (hc : c < s.C.width) :
    (MatMul fz fadd fmul s g al dmem).C.buf (r * s.C.width + c)
      = dotAcc fadd fmul (fun e => s.A.buf (r * s.A.width + e))
          (fun e => s.B.buf (e * s.B.width + c)) fz (List.range s.A.width) := by
  have hB : (BLOCK_SIZE : Nat) = 16 := rfl
  have hin : r * s.C.width + c < s.C.width * s.C.height := by
    rw [Nat.mul_comm s.C.width s.C.height]
    exact rowcol_lt r c s.C.height s.C.width hr hc
  have hgx : BLOCK_SIZE * (s.B.width / BLOCK_SIZE) = s.C.width := by
    rw [Nat.mul_div_cancel' (Nat.dvd_of_mod_eq_zero h3), h6]
  have hgy : BLOCK_SIZE * (s.A.height / BLOCK_SIZE) = s.C.height := by
    rw [Nat.mul_div_cancel' (Nat.dvd_of_mod_eq_zero h2), h5]
  have hrow : BLOCK_SIZE * (r / BLOCK_SIZE) + r % BLOCK_SIZE = r := by rw [hB]; omega
  have hcol : BLOCK_SIZE * (c / BLOCK_SIZE) + c % BLOCK_SIZE = c := by rw [hB]; omega
  have hrow2 : r / BLOCK_SIZE * BLOCK_SIZE + r % BLOCK_SIZE = r := by rw [hB]; omega
  have hcol2 : c / BLOCK_SIZE * BLOCK_SIZE + c % BLOCK_SIZE = c := by rw [hB]; omega
  have hWA : BLOCK_SIZE * (s.A.width / BLOCK_SIZE) = s.A.width :=
    Nat.mul_div_cancel' (Nat.dvd_of_mod_eq_zero h1)
  have hcongr : dotAcc fadd fmul
        (fun e => copyRegion (copyRegion dmem al.aA (s.A.width * s.A.height) s.A.buf)
          al.aB (s.B.width * s.B.height) s.B.buf (al.aA + r * s.A.width + e))
        (fun e => copyRegion (copyRegion dmem al.aA (s.A.width * s.A.height) s.A.buf)
          al.aB (s.B.width * s.B.height) s.B.buf (al.aB + e * s.B.width + c))
        fz (List.range s.A.width)
      = dotAcc fadd fmul (fun e => s.A.buf (r * s.A.width + e))
          (fun e => s.B.buf (e * s.B.width + c)) fz (List.range s.A.width) := by
    apply dotAcc_congr
    intro k hk
    have hkW : k < s.A.width := List.mem_range.mp hk
    constructor
    · rw [Nat.add_assoc]
      exact staged_read_A s al dmem h7 _
        (by rw [Nat.mul_comm s.A.width s.A.height]
            exact rowcol_lt r k s.A.height s.A.width (h5 ▸ hr) hkW)
    · rw [Nat.add_assoc]
      exact staged_read_B s al dmem _
        (by rw [Nat.mul_comm s.B.width s.B.height]
            exact rowcol_lt k c s.B.height s.B.width (h4 ▸ hkW) (h6 ▸ hc))
  simp only [MatMul]
  rw [if_pos hin]
  cases g with
  | false =>
    have hsel : MatMulSelect false = Kernel.partitioned := rfl
    rw [hsel]
    dsimp only
    have hL := launchPartitioned_at fz fadd fmul
      ⟨s.A.width, s.A.height, s.A.width, al.aA⟩
      ⟨s.B.width, s.B.height, s.B.width, al.aB⟩
      ⟨s.C.width, s.C.height, s.C.width, al.aC⟩
      (s.B.width / BLOCK_SIZE) (s.A.height / BLOCK_SIZE)
      (copyRegion (copyRegion dmem al.aA (s.A.width * s.A.height) s.A.buf)
        al.aB (s.B.width * s.B.height) s.B.buf)
      hgx hgy rfl r c hr hc
    dsimp only at hL
    rw [hL, partitionedValue_eq]
    dsimp only
    rw [hrow, hcol, hWA]
    exact hcongr
  | true =>
    have hsel : MatMulSelect true = Kernel.general := rfl
    rw [hsel]
    dsimp only
    have hL := launchGeneral_at fz fadd fmul
      ⟨s.A.width, s.A.height, s.A.width, al.aA⟩
      ⟨s.B.width, s.B.height, s.B.width, al.aB⟩
      ⟨s.C.width, s.C.height, s.C.width, al.aC⟩
      (s.B.width / BLOCK_SIZE) (s.A.height / BLOCK_SIZE)
      (copyRegion (copyRegion dmem al.aA (s.A.width * s.A.height) s.A.buf)
        al.aB (s.B.width * s.B.height) s.B.buf)
      hgx hgy r c hr hc
    dsimp only at hL
    rw [hL]
    unfold MatMulKernelGeneralValue generalRow generalCol
    dsimp only
    rw [hrow2, hcol2]
    exact hcongr

/-! ## Lemmas about the accelerator-memory trace -/

theorem filter_ne_of_fresh (s : List (Nat × Nat)) (h : Nat)
    (hh : ∀ q ∈ s, q.1 ≠ h) : (s.filter fun q => q.1 != h) = s := by
  induction s with
  | nil => rfl
  | cons q s ih =>
    rw [List.filter_cons,
      if_pos (bne_iff_ne.mpr (hh q (List.mem_cons_self q s))),
      ih fun v hv => hh v (List.mem_cons_of_mem q hv)]

/-- One `MatMul` call leaves the accelerator pool exactly as it found it,
whatever the outcome flags: every buffer that the call allocated, it frees. -/
theorem runAccTrace_matMulTrace (s : List (Nat × Nat)) (p : CallParams)
    (hAB : p.hA ≠ p.hB) (hAC : p.hA ≠ p.hC) (hBC : p.hB ≠ p.hC)
    (hfA : ∀ q ∈ s, q.1 ≠ p.hA) (hfB : ∀ q ∈ s, q.1 ≠ p.hB)
    (hfC : ∀ q ∈ s, q.1 ≠ p.hC) :
    runAccTrace s (MatMulTrace p) = s := by
  have nBA : (p.hB != p.hA) = true := bne_iff_ne.mpr (Ne.symm hAB)
  have nCA : (p.hC != p.hA) = true := bne_iff_ne.mpr (Ne.symm hAC)
  have nCB : (p.hC != p.hB) = true := bne_iff_ne.mpr (Ne.symm hBC)
  have fA := filter_ne_of_fresh s p.hA hfA
  have fB := filter_ne_of_fresh s p.hB hfB
  have fC := filter_ne_of_fresh s p.hC hfC
  simp only [runAccTrace, MatMulTrace, List.foldl_cons, List.foldl_nil, applyAccEvent]
  cases p.okA <;> cases p.okB <;> cases p.okC <;>
    simp [List.filter_cons, nBA, nCA, nCB, bne_self_eq_false, fA, fB, fC]

/-- `free h` occurs exactly once in a call trace with pairwise distinct
handles. -/
theorem count_free_matMulTrace (p : CallParams)
    (hAB : p.hA ≠ p.hB) (hAC : p.hA ≠ p.hC) (hBC : p.hB ≠ p.hC) :
    (MatMulTrace p).count (AccEvent.free p.hA) = 1 ∧
    (MatMulTrace p).count (AccEvent.free p.hB) = 1 ∧
    (MatMulTrace p).count (AccEvent.free p.hC) = 1 := by
  refine ⟨?_, ?_, ?_⟩ <;>
    simp [MatMulTrace, List.count_cons, beq_iff_eq, hAB, hAC, hBC,
      Ne.symm hAB, Ne.symm hAC, Ne.symm hBC]

/-- Running any sequence of `MatMul` call traces from a baseline pool whose
handles are fresh for every call returns the pool to the baseline. -/
theorem runCalls_eq (s : List (Nat × Nat)) (ps : List CallParams)
    (h : ∀ p ∈ ps, (p.hA ≠ p.hB ∧ p.hA ≠ p.hC ∧ p.hB ≠ p.hC) ∧
         ∀ q ∈ s, q.1 ≠ p.hA ∧ q.1 ≠ p.hB ∧ q.1 ≠ p.hC) :
    runCalls s ps = s := by
  induction ps with
  | nil => rfl
  | cons p ps ih =>
    have hp := h p (List.mem_cons_self p ps)
    have hstep : runAccTrace s (MatMulTrace p) = s :=
      runAccTrace_matMulTrace s p hp.1.1 hp.1.2.1 hp.1.2.2
        (fun q hq => (hp.2 q hq).1) (fun q hq => (hp.2 q hq).2.1)
        (fun q hq => (hp.2 q hq).2.2)
    simp only [runCalls, List.foldl_cons, hstep]
    exact ih fun p2 hp2 => h p2 (List.mem_cons_of_mem p hp2)

/-! ## Concrete witness fixtures -/

/-- A 16×16 full matrix staged at device address 0. -/
def wMatA : Matrix := ⟨16, 16, 16, 0⟩

/-- A 16×16 full matrix staged at device address 300. -/
def wMatB : Matrix := ⟨16, 16, 16, 300⟩

/-- A 16×16 full matrix staged at device address 600. -/
def wMatC : Matrix := ⟨16, 16, 16, 600⟩

/-- A 32×32 full matrix used as a tile parent. -/
def wMatBig : Matrix := ⟨32, 32, 32, 0⟩

/-- A view whose width is not a multiple of the block size and whose stride
differs from its width. -/
def wMatOdd : Matrix := ⟨5, 3, 7, 0⟩

/-- A second such view, at a different address. -/
def wMatOdd2 : Matrix := ⟨4, 5, 9, 100⟩

/-- A two-row view whose stride 2 differs from its width 1. -/
def wMatNarrow : Matrix := ⟨1, 2, 2, 0⟩

/-- An all-ones device memory. -/
def wMem : Nat → Nat := fun _ => 1

/-- The identity device memory. -/
def wMemId : Nat → Nat := fun a => a

/-- A worker in the first block at thread coordinates (3, 2). -/
def wTid : Tid := ⟨0, 0, 3, 2⟩

/-- The worker of output coordinates (1, 0) in a single block. -/
def wTidRow1 : Tid := ⟨0, 0, 0, 1⟩

/-- A 16×16 host instance: A all ones, B the identity, C zeroed. -/
def wHost : HostState Nat :=
  ⟨⟨16, 16, 16, fun _ => 1⟩,
   ⟨16, 16, 16, fun i => if i / 16 = i % 16 then 1 else 0⟩,
   ⟨16, 16, 16, fun _ => 0⟩⟩

/-- The same instance with different initial contents of C. -/
def wHost2 : HostState Nat :=
  ⟨⟨16, 16, 16, fun _ => 1⟩,
   ⟨16, 16, 16, fun i => if i / 16 = i % 16 then 1 else 0⟩,
   ⟨16, 16, 16, fun _ => 42⟩⟩

/-- A disjoint staging layout for three 256-element buffers. -/
def wAl : DevAlloc := ⟨0, 256, 512⟩

/-- A baseline accelerator pool holding one unrelated allocation. -/
def wPool : List (Nat × Nat) := [(99, 8)]

/-- Two calls: one fully successful, one with a failed first allocation and
a failed launch. -/
def wCalls : List CallParams :=
  [⟨1, 2, 3, 1024, 1024, 1024, true, true, true, true, true⟩,
   ⟨4, 5, 6, 1024, 1024, 1024, false, true, true, false, false⟩]

/-! ## Claim theorems -/

/-- C1: for matrices satisfying the dimension invariant (all dimensions
multiples of BLOCK_SIZE, `A.width = B.height`, `A.height = C.height`,
`B.width = C.width`, `width = stride`), the tiled kernel launched on the
`(B.width/BLOCK_SIZE, A.height/BLOCK_SIZE)` grid of BLOCK_SIZE×BLOCK_SIZE
workers writes to every output element
`C(blockRow*BLOCK+row, blockCol*BLOCK+col)` exactly
`Σ_e A(blockRow*BLOCK+row, e) * B(e, blockCol*BLOCK+col)`:
C holds the matrix product. -/
theorem claim1_tiled_kernel_correct (F : Type) [AddCommMonoid F] [Mul F]
    (mem : Nat → F) (A B C : Matrix)
    (hWA : A.width % BLOCK_SIZE = 0) (hHA : A.height % BLOCK_SIZE = 0)
    (hWB : B.width % BLOCK_SIZE = 0) (hHB : B.height % BLOCK_SIZE = 0)
    (hWC : C.width % BLOCK_SIZE = 0) (hHC : C.height % BLOCK_SIZE = 0)
    (hAB : A.width = B.height) (hAC : A.height = C.height) (hBC : B.width = C.width)
    (hsA : A.width = A.stride) (hsB : B.width = B.stride) (hsC : C.width = C.stride)
    (blockRow blockCol row col : Nat)
    (hbR : blockRow < A.height / BLOCK_SIZE) (hbC : blockCol < B.width / BLOCK_SIZE)
    (hro : row < BLOCK_SIZE) (hco : col < BLOCK_SIZE) :
    launchPartitioned 0 (· + ·) (· * ·) A B C
        (B.width / BLOCK_SIZE) (A.height / BLOCK_SIZE) mem
        (C.elements + ((blockRow * BLOCK_SIZE + row) * C.stride
          + (blockCol * BLOCK_SIZE + col)))
      = ∑ e ∈ Finset.range A.width,
          mem (A.elements + (blockRow * BLOCK_SIZE + row) * A.stride + e) *
          mem (B.elements + e * B.stride + (blockCol * BLOCK_SIZE + col)) := by
  have hB16 : (BLOCK_SIZE : Nat) = 16 := rfl
  have hgx : BLOCK_SIZE * (B.width / BLOCK_SIZE) = C.width := by
    rw [Nat.mul_div_cancel' (Nat.dvd_of_mod_eq_zero hWB), hBC]
  have hgy : BLOCK_SIZE * (A.height / BLOCK_SIZE) = C.height := by
    rw [Nat.mul_div_cancel' (Nat.dvd_of_mod_eq_zero hHA), hAC]
  have hWAe : BLOCK_SIZE * (A.width / BLOCK_SIZE) = A.width :=
    Nat.mul_div_cancel' (Nat.dvd_of_mod_eq_zero hWA)
  have hrlt : blockRow * BLOCK_SIZE + row < C.height := by
    rw [hB16] at hbR hro ⊢
    rw [hB16] at hgy
    omega
  have hclt : blockCol * BLOCK_SIZE + col < C.width := by
    rw [hB16] at hbC hco ⊢
    rw [hB16] at hgx
    omega
  have hdivc : (blockCol * BLOCK_SIZE + col) / BLOCK_SIZE = blockCol := by
    rw [hB16] at hco ⊢; omega
  have hmodc : (blockCol * BLOCK_SIZE + col) % BLOCK_SIZE = col := by
    rw [hB16] at hco ⊢; omega
  have hdivr : (blockRow * BLOCK_SIZE + row) / BLOCK_SIZE = blockRow := by
    rw [hB16] at hro ⊢; omega
  have hmodr : (blockRow * BLOCK_SIZE + row) % BLOCK_SIZE = row := by
    rw [hB16] at hro ⊢; omega
  rw [← hsC,
    launchPartitioned_at 0 (· + ·) (· * ·) A B C (B.width / BLOCK_SIZE)
      (A.height / BLOCK_SIZE) mem hgx hgy hsC.symm
      (blockRow * BLOCK_SIZE + row) (blockCol * BLOCK_SIZE + col) hrlt hclt,
    hdivc, hmodc, hdivr, hmodr, partitionedValue_eq]
  dsimp only
  rw [hWAe, dotAcc_eq_sum]
  have c1 : BLOCK_SIZE * blockRow + row = blockRow * BLOCK_SIZE + row := by ring
  have c2 : BLOCK_SIZE * blockCol + col = blockCol * BLOCK_SIZE + col := by ring
  rw [c1, c2]

/-- C1 witness: a concrete 16×16 one-block instance satisfying every
hypothesis, with the conclusion obtained from the claim theorem. -/
theorem claim1_witness :
    (wMatA.width % BLOCK_SIZE = 0 ∧ wMatA.width = wMatB.height
      ∧ wMatA.width = wMatA.stride ∧ 1 < BLOCK_SIZE ∧ 2 < BLOCK_SIZE) ∧
    launchPartitioned 0 (· + ·) (· * ·) wMatA wMatB wMatC
        (wMatB.width / BLOCK_SIZE) (wMatA.height / BLOCK_SIZE) wMem
        (wMatC.elements + ((0 * BLOCK_SIZE + 1) * wMatC.stride
          + (0 * BLOCK_SIZE + 2)))
      = ∑ e ∈ Finset.range wMatA.width,
          wMem (wMatA.elements + (0 * BLOCK_SIZE + 1) * wMatA.stride + e) *
          wMem (wMatB.elements + e * wMatB.stride + (0 * BLOCK_SIZE + 2)) :=
  ⟨⟨rfl, rfl, rfl, by decide, by decide⟩,
   claim1_tiled_kernel_correct Nat wMem wMatA wMatB wMatC rfl rfl rfl rfl rfl rfl
     rfl rfl rfl rfl rfl rfl 0 0 1 2 (by decide) (by decide) (by decide) (by decide)⟩

/-- C3: in the direct kernel, a worker whose coordinates lie inside C
computes `Σ_e A(row,e) * B(e,col)` by one left-to-right loop, writes it to
`C(row,col)`, and its single store leaves every other address unchanged
(the full-matrix invariant `width = stride` makes the kernel's width-based
offsets the layout offsets). -/
theorem claim3_general_kernel_thread (F : Type) [AddCommMonoid F] [Mul F]
    (mem : Nat → F) (A B C : Matrix) (t : Tid)
    (hsA : A.width = A.stride) (hsB : B.width = B.stride) (hsC : C.width = C.stride)
    (hrow : generalRow t < C.height) (hcol : generalCol t < C.width) :
    MatMulKernelGeneralValue 0 (· + ·) (· * ·) mem A B t
      = ∑ e ∈ Finset.range A.width,
          mem (A.elements + generalRow t * A.stride + e) *
          mem (B.elements + e * B.stride + generalCol t)
    ∧ MatMulKernelGeneralAddr C t
        = C.elements + generalRow t * C.stride + generalCol t
    ∧ ∀ a, a ≠ MatMulKernelGeneralAddr C t →
        memUpd mem (MatMulKernelGeneralAddr C t)
          (MatMulKernelGeneralValue 0 (· + ·) (· * ·) mem A B t) a = mem a := by
  refine ⟨?_, ?_, ?_⟩
  · rw [MatMulKernelGeneralValue, dotAcc_eq_sum]
    apply Finset.sum_congr rfl
    intro e he
    rw [hsA, hsB]
  · rw [MatMulKernelGeneralAddr, hsC]
  · intro a ha
    exact memUpd_other _ _ _ _ ha

/-- C3 witness: a concrete in-range worker of the 16×16 instance. -/
theorem claim3_witness :
    (wMatA.width = wMatA.stride ∧ generalRow wTid < wMatC.height
      ∧ generalCol wTid < wMatC.width) ∧
    (MatMulKernelGeneralValue 0 (· + ·) (· * ·) wMem wMatA wMatB wTid
      = ∑ e ∈ Finset.range wMatA.width,
          wMem (wMatA.elements + generalRow wTid * wMatA.stride + e) *
          wMem (wMatB.elements + e * wMatB.stride + generalCol wTid)
    ∧ MatMulKernelGeneralAddr wMatC wTid
        = wMatC.elements + generalRow wTid * wMatC.stride + generalCol wTid
    ∧ ∀ a, a ≠ MatMulKernelGeneralAddr wMatC wTid →
        memUpd wMem (MatMulKernelGeneralAddr wMatC wTid)
          (MatMulKernelGeneralValue 0 (· + ·) (· * ·) wMem wMatA wMatB wTid) a
          = wMem a) :=
  ⟨⟨rfl, by decide, by decide⟩,
   claim3_general_kernel_thread Nat wMem wMatA wMatB wMatC wTid rfl rfl rfl
     (by decide) (by decide)⟩

/-- C5: the tile accessor returns a BLOCK_SIZE×BLOCK_SIZE view with the
parent's stride whose data points into the parent's buffer at element offset
`stride*BLOCK_SIZE*blockRow + BLOCK_SIZE*blockCol`; as a plain function of
the descriptor it performs no copy, no allocation and no state write. -/
theorem claim5_getSubMatrix_view (A : Matrix) (blockRow blockCol : Nat)
    (hR : (blockRow + 1) * BLOCK_SIZE ≤ A.height)
    (hC : (blockCol + 1) * BLOCK_SIZE ≤ A.width) :
    (GetSubMatrix A blockRow blockCol).width = BLOCK_SIZE ∧
    (GetSubMatrix A blockRow blockCol).height = BLOCK_SIZE ∧
    (GetSubMatrix A blockRow blockCol).stride = A.stride ∧
    (GetSubMatrix A blockRow blockCol).elements
      = A.elements + (A.stride * BLOCK_SIZE * blockRow + BLOCK_SIZE * blockCol) :=
  ⟨rfl, rfl, rfl, rfl⟩

/-- C5 witness: the (1,1) tile of a concrete 32×32 parent. -/
theorem claim5_witness :
    ((1 + 1) * BLOCK_SIZE ≤ wMatBig.height ∧ (1 + 1) * BLOCK_SIZE ≤ wMatBig.width) ∧
    ((GetSubMatrix wMatBig 1 1).width = BLOCK_SIZE ∧
     (GetSubMatrix wMatBig 1 1).height = BLOCK_SIZE ∧
     (GetSubMatrix wMatBig 1 1).stride = wMatBig.stride ∧
     (GetSubMatrix wMatBig 1 1).elements
       = wMatBig.elements + (wMatBig.stride * BLOCK_SIZE * 1 + BLOCK_SIZE * 1)) :=
  ⟨⟨by decide, by decide⟩,
   claim5_getSubMatrix_view wMatBig 1 1 (by decide) (by decide)⟩

/-- C8: for every `A.width` (a multiple of BLOCK_SIZE or not), the tiled
contraction loop runs exactly `A.width / BLOCK_SIZE` iterations (integer
division); the accumulator is one flat accumulation of exactly
`BLOCK_SIZE * (A.width / BLOCK_SIZE)` products over contraction indices
below that bound (which never exceeds `A.width`), so a partial final tile is
never processed, and contraction indices from
`BLOCK_SIZE * (A.width / BLOCK_SIZE)` up to `A.width - 1` contribute
nothing: any two memories agreeing below the bound yield the same value. -/
theorem claim8_tiled_loop_bound (F : Type) (fz : F) (fadd fmul : F → F → F)
    (A B : Matrix) (t : Tid) (mem mem2 : Nat → F)
    (hagree : ∀ k, k < BLOCK_SIZE * (A.width / BLOCK_SIZE) →
      mem (A.elements + (BLOCK_SIZE * t.byi + t.ty) * A.stride + k)
        = mem2 (A.elements + (BLOCK_SIZE * t.byi + t.ty) * A.stride + k) ∧
      mem (B.elements + k * B.stride + (BLOCK_SIZE * t.bx + t.tx))
        = mem2 (B.elements + k * B.stride + (BLOCK_SIZE * t.bx + t.tx))) :
    (tiledSteps A).length = A.width / BLOCK_SIZE ∧
    BLOCK_SIZE * (A.width / BLOCK_SIZE) ≤ A.width ∧
    MatMulKernelPartitionedValue fz fadd fmul mem A B t
      = dotAcc fadd fmul
          (fun k => mem (A.elements + (BLOCK_SIZE * t.byi + t.ty) * A.stride + k))
          (fun k => mem (B.elements + k * B.stride + (BLOCK_SIZE * t.bx + t.tx)))
          fz (List.range (BLOCK_SIZE * (A.width / BLOCK_SIZE))) ∧
    MatMulKernelPartitionedValue fz fadd fmul mem A B t
      = MatMulKernelPartitionedValue fz fadd fmul mem2 A B t := by
  refine ⟨by simp [tiledSteps], ?_, partitionedValue_eq fz fadd fmul mem A B t, ?_⟩
  · rw [Nat.mul_comm]
    exact Nat.div_mul_le_self A.width BLOCK_SIZE
  · rw [partitionedValue_eq, partitionedValue_eq]
    apply dotAcc_congr
    intro k hk
    exact hagree k (List.mem_range.mp hk)

/-- C8 witness: a concrete width 5 (not a multiple of 16), where the loop
runs zero iterations and the value ignores the whole contraction range. -/
theorem claim8_witness :
    (∀ k, k < BLOCK_SIZE * (wMatOdd.width / BLOCK_SIZE) →
      wMemId (wMatOdd.elements + (BLOCK_SIZE * wTid.byi + wTid.ty) * wMatOdd.stride + k)
        = wMemId (wMatOdd.elements + (BLOCK_SIZE * wTid.byi + wTid.ty) * wMatOdd.stride + k) ∧
      wMemId (wMatOdd2.elements + k * wMatOdd2.stride + (BLOCK_SIZE * wTid.bx + wTid.tx))
        = wMemId (wMatOdd2.elements + k * wMatOdd2.stride + (BLOCK_SIZE * wTid.bx + wTid.tx))) ∧
    ((tiledSteps wMatOdd).length = wMatOdd.width / BLOCK_SIZE ∧
     BLOCK_SIZE * (wMatOdd.width / BLOCK_SIZE) ≤ wMatOdd.width ∧
     MatMulKernelPartitionedValue 0 (· + ·) (· * ·) wMemId wMatOdd wMatOdd2 wTid
       = dotAcc (· + ·) (· * ·)
           (fun k => wMemId (wMatOdd.elements
             + (BLOCK_SIZE * wTid.byi + wTid.ty) * wMatOdd.stride + k))
           (fun k => wMemId (wMatOdd2.elements + k * wMatOdd2.stride
             + (BLOCK_SIZE * wTid.bx + wTid.tx)))
           0 (List.range (BLOCK_SIZE * (wMatOdd.width / BLOCK_SIZE))) ∧
     MatMulKernelPartitionedValue 0 (· + ·) (· * ·) wMemId wMatOdd wMatOdd2 wTid
       = MatMulKernelPartitionedValue 0 (· + ·) (· * ·) wMemId wMatOdd wMatOdd2 wTid) :=
  ⟨fun k hk => ⟨rfl, rfl⟩,
   claim8_tiled_loop_bound Nat 0 (· + ·) (· * ·) wMatOdd wMatOdd2 wTid wMemId wMemId
     fun k hk => ⟨rfl, rfl⟩⟩

/-- C9 counterexample: the direct kernel's store for output coordinates
(1, 0) of a C view with width 1 and stride 2 goes to buffer offset
`1 * width + 0 = 1`, not to the layout rule's `1 * stride + 0 = 2`, so not
every access of the kernels follows the `r*stride + c` rule. -/
theorem claim9_counterexample :
    MatMulKernelGeneralAddr wMatNarrow wTidRow1
      ≠ wMatNarrow.elements + generalRow wTidRow1 * wMatNarrow.stride
        + generalCol wTidRow1 := by
  decide

/-- C9 amended: accesses of the tile accessor and of the tiled kernel follow
the `r*stride + c` layout rule unconditionally; the direct kernel addresses
by `r*width + c` instead, which coincides with the layout rule exactly when
`width = stride` — as holds for every matrix the host stages for it. -/
theorem claim9_layout_rule (F : Type) (fz : F) (fadd fmul : F → F → F)
    (mem : Nat → F) (A B C : Matrix) (t : Tid) :
    ((GetSubMatrix A t.byi t.bx).elements
        = A.elements + (t.byi * BLOCK_SIZE) * A.stride + t.bx * BLOCK_SIZE) ∧
    (MatMulKernelPartitionedAddr C t
        = C.elements + (BLOCK_SIZE * t.byi + t.ty) * C.stride
          + (BLOCK_SIZE * t.bx + t.tx)) ∧
    (MatMulKernelPartitionedValue fz fadd fmul mem A B t
        = dotAcc fadd fmul
            (fun k => mem (A.elements + (BLOCK_SIZE * t.byi + t.ty) * A.stride + k))
            (fun k => mem (B.elements + k * B.stride + (BLOCK_SIZE * t.bx + t.tx)))
            fz (List.range (BLOCK_SIZE * (A.width / BLOCK_SIZE)))) ∧
    (A.width = A.stride → B.width = B.stride → C.width = C.stride →
      MatMulKernelGeneralValue fz fadd fmul mem A B t
        = dotAcc fadd fmul
            (fun e => mem (A.elements + generalRow t * A.stride + e))
            (fun e => mem (B.elements + e * B.stride + generalCol t))
            fz (List.range A.width) ∧
      MatMulKernelGeneralAddr C t
        = C.elements + generalRow t * C.stride + generalCol t) := by
  refine ⟨?_, ?_, ?_, ?_⟩
  · rw [GetSubMatrix]
    ring
  · rw [MatMulKernelPartitionedAddr, GetSubMatrix]
    ring
  · exact partitionedValue_eq fz fadd fmul mem A B t
  · intro hsA hsB hsC
    constructor
    · rw [MatMulKernelGeneralValue]
      apply dotAcc_congr
      intro k hk
      rw [hsA, hsB]
      exact ⟨rfl, rfl⟩
    · rw [MatMulKernelGeneralAddr, hsC]

/-- C9 witness: the amended statement instantiated at the concrete 16×16
matrices, whose widths equal their strides. -/
theorem claim9_witness :
    (wMatA.width = wMatA.stride ∧ wMatB.width = wMatB.stride
      ∧ wMatC.width = wMatC.stride) ∧
    (MatMulKernelGeneralValue 0 (· + ·) (· * ·) wMem wMatA wMatB wTid
        = dotAcc (· + ·) (· * ·)
            (fun e => wMem (wMatA.elements + generalRow wTid * wMatA.stride + e))
            (fun e => wMem (wMatB.elements + e * wMatB.stride + generalCol wTid))
            0 (List.range wMatA.width) ∧
      MatMulKernelGeneralAddr wMatC wTid
        = wMatC.elements + generalRow wTid * wMatC.stride + generalCol wTid) :=
  ⟨⟨rfl, rfl, rfl⟩,
   (claim9_layout_rule Nat 0 (· + ·) (· * ·) wMem wMatA wMatB wMatC wTid).2.2.2
     rfl rfl rfl⟩

/-- C2: for square matrices whose dimension is a multiple of the block size,
`Multiply` with the tiled strategy and with the direct strategy produce
bit-for-bit identical C contents: the element type and the addition and
multiplication operations are arbitrary (no associativity assumed), because
both kernels perform the same left-to-right accumulation over the
contraction dimension, the tiled one merely batched in BLOCK_SIZE chunks. -/
theorem claim2_strategies_bitwise_equal (F : Type) (fz : F) (fadd fmul : F → F → F)
    (s : HostState F) (al : DevAlloc) (dmem1 dmem2 : Nat → F) (n : Nat)
    (hn : n % BLOCK_SIZE = 0)
    (hA1 : s.A.width = n) (hA2 : s.A.height = n)
    (hB1 : s.B.width = n) (hB2 : s.B.height = n)
    (hC1 : s.C.width = n) (hC2 : s.C.height = n)
    (h7 : al.aA + n * n ≤ al.aB) (h8 : al.aB + n * n ≤ al.aC) :
    ∀ i, (MatMul fz fadd fmul s true al dmem1).C.buf i
       = (MatMul fz fadd fmul s false al dmem2).C.buf i := by
  have k1 : s.A.width % BLOCK_SIZE = 0 := by rw [hA1]; exact hn
  have k2 : s.A.height % BLOCK_SIZE = 0 := by rw [hA2]; exact hn
  have k3 : s.B.width % BLOCK_SIZE = 0 := by rw [hB1]; exact hn
  have k4 : s.A.width = s.B.height := by rw [hA1, hB2]
  have k5 : s.A.height = s.C.height := by rw [hA2, hC2]
  have k6 : s.B.width = s.C.width := by rw [hB1, hC1]
  have k7 : al.aA + s.A.width * s.A.height ≤ al.aB := by rw [hA1, hA2]; exact h7
  have k8 : al.aB + s.B.width * s.B.height ≤ al.aC := by rw [hB1, hB2]; exact h8
  intro i
  by_cases hi : i < s.C.width * s.C.height
  · have hw : 0 < s.C.width := by
      rcases Nat.eq_zero_or_pos s.C.width with h0 | h0
      · rw [h0, Nat.zero_mul] at hi; omega
      · exact h0
    have hc : i % s.C.width < s.C.width := Nat.mod_lt _ hw
    have hr : i / s.C.width < s.C.height := by
      rw [Nat.div_lt_iff_lt_mul hw]
      exact lt_of_lt_of_eq hi (Nat.mul_comm _ _)
    have key1 := matMul_buf_eq fz fadd fmul s true al dmem1
      k1 k2 k3 k4 k5 k6 k7 k8 (i / s.C.width) (i % s.C.width) hr hc
    have key2 := matMul_buf_eq fz fadd fmul s false al dmem2
      k1 k2 k3 k4 k5 k6 k7 k8 (i / s.C.width) (i % s.C.width) hr hc
    have hidx : i / s.C.width * s.C.width + i % s.C.width = i := by
      rw [Nat.mul_comm (i / s.C.width) s.C.width]
      exact Nat.div_add_mod i s.C.width
    rw [hidx] at key1 key2
    rw [key1, key2]
  · simp only [MatMul]
    rw [if_neg hi, if_neg hi]

/-- C2 witness: a concrete 16×16 host state with two different garbage
device memories, for which both strategies agree everywhere. -/
theorem claim2_witness :
    (16 % BLOCK_SIZE = 0
      ∧ wHost.A.width = 16 ∧ wHost.C.height = 16
      ∧ wAl.aA + 16 * 16 ≤ wAl.aB ∧ wAl.aB + 16 * 16 ≤ wAl.aC) ∧
    ∀ i, (MatMul 0 (· + ·) (· * ·) wHost true wAl wMemId).C.buf i
       = (MatMul 0 (· + ·) (· * ·) wHost false wAl wMem).C.buf i :=
  ⟨⟨by decide, rfl, rfl, by decide, by decide⟩,
   claim2_strategies_bitwise_equal Nat 0 (· + ·) (· * ·) wHost wAl wMemId wMem 16
     (by decide) rfl rfl rfl rfl rfl rfl (by decide) (by decide)⟩

/-- C4 counterexample: the claim's flag mapping is false — with the flag
true the selected kernel is the general (direct) one, with the flag false
the partitioned (tiled) one, not the other way around. -/
theorem claim4_counterexample :
    ¬ (MatMulSelect true = Kernel.partitioned
        ∧ MatMulSelect false = Kernel.general) := by
  decide

/-- C4 amended: the host operation launches the Direct (general) kernel when
its boolean flag is true and the Tiled (partitioned) kernel when it is
false — the source's flag is named `general`, the opposite polarity to the
claim's `useTiled` reading. -/
theorem claim4_flag_selects_kernel :
    MatMulSelect true = Kernel.general
      ∧ MatMulSelect false = Kernel.partitioned := by
  decide

/-- C6: every `MatMul` call pairs allocations with releases on every path —
success, failed allocation or failed launch: each of the three handles is
freed exactly once in the call's trace, and any sequence of calls whose
handles are distinct and fresh leaves the accelerator pool, hence the
memory held, exactly at the pre-call baseline. -/
theorem claim6_no_leak (s : List (Nat × Nat)) (ps : List CallParams)
    (h : ∀ p ∈ ps, (p.hA ≠ p.hB ∧ p.hA ≠ p.hC ∧ p.hB ≠ p.hC) ∧
         ∀ q ∈ s, q.1 ≠ p.hA ∧ q.1 ≠ p.hB ∧ q.1 ≠ p.hC) :
    runCalls s ps = s ∧ heldBytes (runCalls s ps) = heldBytes s ∧
    ∀ p ∈ ps, (MatMulTrace p).count (AccEvent.free p.hA) = 1 ∧
              (MatMulTrace p).count (AccEvent.free p.hB) = 1 ∧
              (MatMulTrace p).count (AccEvent.free p.hC) = 1 := by
  have hrun := runCalls_eq s ps h
  refine ⟨hrun, by rw [hrun], ?_⟩
  intro p hp
  exact count_free_matMulTrace p (h p hp).1.1 (h p hp).1.2.1 (h p hp).1.2.2

/-- C6 witness: two consecutive calls — one fully successful, one with a
failed allocation and a failed launch — starting from a nonempty baseline
pool, ending exactly at the baseline. -/
theorem claim6_witness :
    (∀ p ∈ wCalls, (p.hA ≠ p.hB ∧ p.hA ≠ p.hC ∧ p.hB ≠ p.hC) ∧
       ∀ q ∈ wPool, q.1 ≠ p.hA ∧ q.1 ≠ p.hB ∧ q.1 ≠ p.hC) ∧
    (runCalls wPool wCalls = wPool ∧
     heldBytes (runCalls wPool wCalls) = heldBytes wPool ∧
     ∀ p ∈ wCalls, (MatMulTrace p).count (AccEvent.free p.hA) = 1 ∧
                   (MatMulTrace p).count (AccEvent.free p.hB) = 1 ∧
                   (MatMulTrace p).count (AccEvent.free p.hC) = 1) :=
  ⟨by decide, claim6_no_leak wPool wCalls (by decide)⟩

/-- C7: `Multiply` mutates only the contents of C's host buffer: A and B
(descriptors and buffer contents) and C's descriptor fields are identical
before and after every invocation; the device staging memory it touches is
transient (allocated and freed within the call, see the C6 theorem). -/
theorem claim7_frame (F : Type) (fz : F) (fadd fmul : F → F → F)
    (s : HostState F) (g : Bool) (al : DevAlloc) (dmem : Nat → F) :
    (MatMul fz fadd fmul s g al dmem).A = s.A ∧
    (MatMul fz fadd fmul s g al dmem).B = s.B ∧
    (MatMul fz fadd fmul s g al dmem).C.width = s.C.width ∧
    (MatMul fz fadd fmul s g al dmem).C.height = s.C.height ∧
    (MatMul fz fadd fmul s g al dmem).C.stride = s.C.stride :=
  ⟨rfl, rfl, rfl, rfl, rfl⟩

/-- C10: the final contents of C depend only on A, B and the flag: two runs
with equal A and B (descriptors and contents), equal C descriptors, the
same flag and staging layout, but arbitrary initial C buffers and arbitrary
device-memory garbage, produce identical C contents — the prior contents of
C are never read. -/
theorem claim10_output_determined (F : Type) (fz : F) (fadd fmul : F → F → F)
    (s1 s2 : HostState F) (g : Bool) (al : DevAlloc) (dmem1 dmem2 : Nat → F)
    (hA : s1.A = s2.A) (hB : s1.B = s2.B)
    (hCw : s1.C.width = s2.C.width) (hCh : s1.C.height = s2.C.height)
    (h1 : s1.A.width % BLOCK_SIZE = 0) (h2 : s1.A.height % BLOCK_SIZE = 0)
    (h3 : s1.B.width % BLOCK_SIZE = 0)
    (h4 : s1.A.width = s1.B.height) (h5 : s1.A.height = s1.C.height)
    (h6 : s1.B.width = s1.C.width)
    (h7 : al.aA + s1.A.width * s1.A.height ≤ al.aB)
    (h8 : al.aB + s1.B.width * s1.B.height ≤ al.aC) :
    ∀ i, i < s1.C.width * s1.C.height →
      (MatMul fz fadd fmul s1 g al dmem1).C.buf i
        = (MatMul fz fadd fmul s2 g al dmem2).C.buf i := by
  intro i hi
  have hw : 0 < s1.C.width := by
    rcases Nat.eq_zero_or_pos s1.C.width with h0 | h0
    · rw [h0, Nat.zero_mul] at hi; omega
    · exact h0
  have hc : i % s1.C.width < s1.C.width := Nat.mod_lt _ hw
  have hr : i / s1.C.width < s1.C.height := by
    rw [Nat.div_lt_iff_lt_mul hw]
    exact lt_of_lt_of_eq hi (Nat.mul_comm _ _)
  have h1b : s2.A.width % BLOCK_SIZE = 0 := by rw [← hA]; exact h1
  have h2b : s2.A.height % BLOCK_SIZE = 0 := by rw [← hA]; exact h2
  have h3b : s2.B.width % BLOCK_SIZE = 0 := by rw [← hB]; exact h3
  have h4b : s2.A.width = s2.B.height := by rw [← hA, ← hB]; exact h4
  have h5b : s2.A.height = s2.C.height := by rw [← hA, ← hCh]; exact h5
  have h6b : s2.B.width = s2.C.width := by rw [← hB, ← hCw]; exact h6
  have h7b : al.aA + s2.A.width * s2.A.height ≤ al.aB := by rw [← hA]; exact h7
  have h8b : al.aB + s2.B.width * s2.B.height ≤ al.aC := by rw [← hB]; exact h8
  have hrb : i / s2.C.width < s2.C.height := by rw [← hCw, ← hCh]; exact hr
  have hcb : i % s2.C.width < s2.C.width := by rw [← hCw]; exact hc
  have key1 := matMul_buf_eq fz fadd fmul s1 g al dmem1
    h1 h2 h3 h4 h5 h6 h7 h8 (i / s1.C.width) (i % s1.C.width) hr hc
  have key2 := matMul_buf_eq fz fadd fmul s2 g al dmem2
    h1b h2b h3b h4b h5b h6b h7b h8b (i / s2.C.width) (i % s2.C.width) hrb hcb
  have hidx1 : i / s1.C.width * s1.C.width + i % s1.C.width = i := by
    rw [Nat.mul_comm (i / s1.C.width) s1.C.width]
    exact Nat.div_add_mod i s1.C.width
  have hidx2 : i / s2.C.width * s2.C.width + i % s2.C.width = i := by
    rw [Nat.mul_comm (i / s2.C.width) s2.C.width]
    exact Nat.div_add_mod i s2.C.width
  rw [hidx1] at key1
  rw [hidx2] at key2
  rw [key1, key2, hA, hB, hCw]

/-- C10 witness: two concrete 16×16 host states differing only in the
initial contents of C (and run over different device garbage), whose final
C contents coincide on the whole extent. -/
theorem claim10_witness :
    (wHost.A = wHost2.A ∧ wHost.C.buf 0 ≠ wHost2.C.buf 0
      ∧ wHost.A.width % BLOCK_SIZE = 0) ∧
    ∀ i, i < wHost.C.width * wHost.C.height →
      (MatMul 0 (· + ·) (· * ·) wHost false wAl wMemId).C.buf i
        = (MatMul 0 (· + ·) (· * ·) wHost2 false wAl wMem).C.buf i :=
  ⟨⟨rfl, by decide, by decide⟩,
   claim10_output_determined Nat 0 (· + ·) (· * ·) wHost wHost2 false wAl wMemId wMem
     rfl rfl rfl rfl (by decide) (by decide) (by decide) rfl rfl rfl
     (by decide) (by decide)⟩

end CMMX
